import Mathlib

/-!
# Verification of the asyncioclass67 repository

Shallow embedding of the two scripts of the repository:

* `src/assignment11/shopping02.py` — a bounded-queue producer/consumer
  checkout simulation built on `asyncio.Queue`: a producer coroutine
  (`customer_generation`) enqueues 20 customers, five cashier coroutines
  (`checkout_customer`) drain the queue forever, and `main` awaits the
  producer, joins the queue, and then cancels the cashiers.
* `src/assignment06/asyncio02.py` — a bounded asynchronous iterator that
  yields 1..10, one value per second.

Python floats are embedded as rationals (`ℚ`); `round(x, ndigits=2)` is
embedded as round-half-to-even on hundredths, exactly as Python defines it.
The asyncio event loop is embedded as a labeled transition system whose
atomic steps are the code segments between suspension points (`await`).
-/

/-- `Product` from shopping02.py: a name and a checkout time. -/
structure Product where
  product_name : String
  checkout_time : ℚ
deriving DecidableEq

/-- `Customer` from shopping02.py: an id and a list of products. -/
structure Customer where
  customer_id : ℕ
  products : List Product
deriving DecidableEq

/-- Python's `round(q, ndigits=2)`: round to hundredths, ties to even. -/
def pyRound2 (q : ℚ) : ℚ :=
  ((if q * 100 - ⌊q * 100⌋ < 1/2 then ⌊q * 100⌋
    else if 1/2 < q * 100 - ⌊q * 100⌋ then ⌊q * 100⌋ + 1
    else if ⌊q * 100⌋ % 2 = 0 then ⌊q * 100⌋ else ⌊q * 100⌋ + 1 : ℤ) : ℚ) / 100

/-- The fixed catalog built inside `generate_customer`
    (beef 1s, banana 0.4s, sausage 0.4s, diapers 0.2s). -/
def all_products : List Product :=
  [⟨"beef", 1⟩, ⟨"banana", 2/5⟩, ⟨"sausage", 2/5⟩, ⟨"diapers", 1/5⟩]

/-- `generate_customer` from shopping02.py: every customer gets the
    whole fixed catalog. -/
def generate_customer (customer_id : ℕ) : Customer :=
  ⟨customer_id, all_products⟩

/-- Total rounded checkout time of one customer: the sum the cashier
    adds to its `cashier_times` slot while processing that customer. -/
def customerTime (c : Customer) : ℚ :=
  (c.products.map (fun p => pyRound2 p.checkout_time)).sum

/-! ## The producer `customer_generation`

The `while customer_count < total_customers` loop, modelled as the list of
customers it enqueues (in order) plus its return value `customer_count`. -/

/-- The customers enqueued by the producer loop from counter `count` up to
    `total` (the loop body enqueues `generate_customer count` and increments). -/
def genFrom (count total : ℕ) : List Customer :=
  if h : count < total then generate_customer count :: genFrom (count + 1) total
  else []
termination_by total - count
decreasing_by omega

/-- The full enqueue sequence of `customer_generation(queue, total)`. -/
def customer_generation_items (total_customers : ℕ) : List Customer :=
  genFrom 0 total_customers

/-- The value returned by `customer_generation`: the final `customer_count`,
    which equals `total_customers` because the loop exits at equality. -/
def customer_generation_ret (total_customers : ℕ) : ℕ :=
  total_customers

/-! ## The queue: `asyncio.Queue(5)`

State of an `asyncio.Queue`: the buffered items, the `maxsize`, and the
`_unfinished_tasks` counter.  `put` appends and increments the counter,
blocking while the buffer is full; `get` pops the head, blocking while
empty; `task_done` decrements the counter and raises if it is already
zero; `join` returns exactly when the counter is zero. -/
structure QueueState where
  items : List Customer
  maxsize : ℕ
  unfinished : ℕ
deriving DecidableEq

/-- A fresh `Queue(maxsize)`. -/
def initQueue (maxsize : ℕ) : QueueState :=
  ⟨[], maxsize, 0⟩

/-- `join()` is ready to return iff `_unfinished_tasks == 0`. -/
def joinReady (s : QueueState) : Prop :=
  s.unfinished = 0

instance (s : QueueState) : Decidable (joinReady s) := by
  unfold joinReady; infer_instance

/-- One queue operation, as seen by the queue. -/
inductive QOp where
  | put (c : Customer)
  | get
  | task_done
deriving DecidableEq

/-- Apply one queue operation.  `none` means the operation cannot complete
    here: a `put` on a full queue or a `get` on an empty queue suspends,
    and a `task_done` with no unfinished task raises `ValueError`. -/
def applyQOp (s : QueueState) : QOp → Option QueueState
  | .put c =>
      if s.items.length < s.maxsize then
        some { s with items := s.items ++ [c], unfinished := s.unfinished + 1 }
      else none
  | .get =>
      match s.items with
      | [] => none
      | _ :: rest => some { s with items := rest }
  | .task_done =>
      if s.unfinished = 0 then none
      else some { s with unfinished := s.unfinished - 1 }

/-- Apply a whole trace of queue operations. -/
def applyQOps (s : QueueState) (t : List QOp) : Option QueueState :=
  t.foldlM applyQOp s

/-- Number of (successful) `put` operations in a trace. -/
def countPut (t : List QOp) : ℕ :=
  t.countP fun op => match op with | .put _ => true | _ => false

/-- Number of `task_done` operations in a trace. -/
def countDone (t : List QOp) : ℕ :=
  t.countP fun op => match op with | .task_done => true | _ => false

/-- Number of `get` operations in a trace. -/
def countGet (t : List QOp) : ℕ :=
  t.countP fun op => match op with | .get => true | _ => false

/-- Put a whole list of items, in order (suspending puts fail the whole run). -/
def putAll (s : QueueState) : List Customer → Option QueueState
  | [] => some s
  | c :: cs => (applyQOp s (.put c)).bind fun s1 => putAll s1 cs

/-- Perform `n` gets, returning the items obtained in order. -/
def getAll (s : QueueState) : ℕ → Option (List Customer × QueueState)
  | 0 => some ([], s)
  | n + 1 =>
      match s.items with
      | [] => none
      | c :: rest =>
          (getAll { s with items := rest } n).map fun r => (c :: r.1, r.2)

/-! ## The async iterator of asyncio02.py -/

/-- `AsyncIterator.__anext__` as a state transformer on `self.counter`:
    raises `StopAsyncIteration` (`none`) once the counter has reached 10,
    otherwise increments the counter, sleeps, and returns the new counter.
    The result is `(returned value, new counter)`. -/
def anext (counter : ℕ) : Option (ℕ × ℕ) :=
  if counter ≥ 10 then none
  else some (counter + 1, counter + 1)

/-- The values printed by `async for item in AsyncIterator()` in
    asyncio02.py's `main`, starting from counter state `counter`. -/
def asyncForItems (counter : ℕ) : List ℕ :=
  match h : anext counter with
  | none => []
  | some (v, c2) => v :: asyncForItems c2
termination_by 10 - counter
decreasing_by
  simp only [anext] at h
  split at h
  · exact absurd h (by simp)
  · simp only [Option.some.injEq, Prod.mk.injEq] at h
    omega

/-! ## The whole shopping02.py program as a transition system

`main` builds `Queue(5)`, starts `customer_generation(queue, 20)`, starts
five `checkout_customer(queue, i, cashier_times)` tasks over a shared
`cashier_times = [0] * 5`, awaits the producer, awaits `queue.join()`, and
then cancels every cashier.  The atomic steps of the transition system are
the code segments between `await` suspension points of the event loop. -/

/-- Where a cashier coroutine is suspended.  `checkout_customer`'s loop
    suspends at `await queue.get()` and at each `await asyncio.sleep(t)`.
    `returned` stands for the `return total_time` statement after the
    `while True:` loop; `cancelled` is the state after the task has
    honoured a `cancel()` at a suspension point. -/
inductive WorkerPhase where
  | atGet
  | sleeping (current : Product) (rest : List Product)
  | returned
  | cancelled
deriving DecidableEq

/-- Where `main` is suspended: awaiting `customer_producer`, awaiting
    `customer_queue.join()`, resumed after join (`joined`), or past the
    cancellation loop (`finished`). -/
inductive CoordPhase where
  | awaitingProducer
  | awaitingJoin
  | joined
  | finished
deriving DecidableEq

/-- Global state of the event loop for shopping02.py. -/
structure SysState where
  queue : QueueState
  produced : ℕ
  workers : List WorkerPhase
  stats : List ℚ
  coord : CoordPhase
  error : Bool
deriving DecidableEq

/-- Initial state set up by `main`: `Queue(5)`, producer counter 0,
    five cashiers about to call `get`, `cashier_times = [0] * 5`,
    `main` awaiting the producer; no accounting error. -/
def initSys : SysState :=
  { queue := initQueue 5
    produced := 0
    workers := List.replicate 5 .atGet
    stats := List.replicate 5 0
    coord := .awaitingProducer
    error := false }

/-- `queue.task_done()`: decrement `_unfinished_tasks`, or raise the fatal
    `ValueError` (recorded in the `error` flag) if it is already zero. -/
def sysTaskDone (s : SysState) : SysState :=
  if s.queue.unfinished = 0 then { s with error := true }
  else { s with queue := { s.queue with unfinished := s.queue.unfinished - 1 } }

/-- Scheduler labels: which coroutine runs its next atomic segment. -/
inductive Label where
  | produce
  | wget (i : ℕ)
  | wake (i : ℕ)
  | producerDone
  | joinReturn
  | cancelAll
deriving DecidableEq

/-- One atomic step of the event loop (`none` = that coroutine cannot run now).

* `produce`: one iteration of the producer loop — enabled while
  `customer_count < 20` and the queue has room; enqueues
  `generate_customer customer_count` and increments both the counter and
  `_unfinished_tasks`.
* `wget i`: cashier `i`'s `await queue.get()` completes — it takes the head
  customer; if the customer has products it enters the first
  `await asyncio.sleep`, otherwise the `for` loop body is skipped and
  `queue.task_done()` runs at once.
* `wake i`: cashier `i`'s current `await asyncio.sleep(t)` completes — it adds
  `round(t, 2)` to `cashier_times[i]`, then either starts the next product's
  sleep or (after the last product) calls `queue.task_done()` and loops back
  to `await queue.get()`.
* `producerDone`: `await customer_producer` in `main` returns — enabled once
  the producer loop has finished (`produced = 20`).
* `joinReturn`: `await customer_queue.join()` returns — enabled when
  `_unfinished_tasks = 0`.
* `cancelAll`: the `for cashier in cashiers: cashier.cancel()` loop — every
  cashier is parked at a suspension point and becomes cancelled. -/
def sysStep (s : SysState) : Label → Option SysState
  | .produce =>
      if s.produced < 20 ∧ s.queue.items.length < s.queue.maxsize then
        some { s with
                queue := { s.queue with
                           items := s.queue.items ++ [generate_customer s.produced]
                           unfinished := s.queue.unfinished + 1 }
                produced := s.produced + 1 }
      else none
  | .wget i =>
      match s.workers[i]? with
      | some .atGet =>
          match s.queue.items with
          | [] => none
          | c :: rest =>
              let s1 := { s with queue := { s.queue with items := rest } }
              match c.products with
              | [] => some (sysTaskDone s1)
              | p :: ps => some { s1 with workers := s1.workers.set i (.sleeping p ps) }
      | _ => none
  | .wake i =>
      match s.workers[i]? with
      | some (.sleeping p rest) =>
          let t := pyRound2 p.checkout_time
          let s1 := { s with stats := s.stats.set i (s.stats.getD i 0 + t) }
          match rest with
          | [] => some (sysTaskDone { s1 with workers := s1.workers.set i .atGet })
          | q :: rest2 => some { s1 with workers := s1.workers.set i (.sleeping q rest2) }
      | _ => none
  | .producerDone =>
      if s.coord = .awaitingProducer ∧ s.produced = 20 then
        some { s with coord := .awaitingJoin }
      else none
  | .joinReturn =>
      if s.coord = .awaitingJoin ∧ s.queue.unfinished = 0 then
        some { s with coord := .joined }
      else none
  | .cancelAll =>
      if s.coord = .joined then
        some { s with coord := .finished, workers := s.workers.map fun _ => .cancelled }
      else none

/-- Run a schedule from a given state. -/
def runFrom (s : SysState) (ls : List Label) : Option SysState :=
  ls.foldlM sysStep s

/-- Run a schedule from the initial state of `main`. -/
def runSys (ls : List Label) : Option SysState :=
  runFrom initSys ls

/-- A state of the event loop reachable in some execution of `main`. -/
def Reachable (s : SysState) : Prop :=
  ∃ ls : List Label, runSys ls = some s

/-- Rounded time still to be spent by a sleeping cashier on its current
    customer (the current sleep plus all remaining products). -/
def sleepTime : WorkerPhase → ℚ
  | .sleeping p rest => pyRound2 p.checkout_time + (rest.map fun q => pyRound2 q.checkout_time).sum
  | _ => 0

/-- 1 if this cashier holds a dequeued, not yet `task_done`-ed customer. -/
def holdCount : WorkerPhase → ℕ
  | .sleeping _ _ => 1
  | _ => 0

/-- Durations a sleeping cashier will still add are non-negative. -/
def SleepOk : WorkerPhase → Prop
  | .sleeping p rest =>
      0 ≤ pyRound2 p.checkout_time ∧ ∀ q ∈ rest, 0 ≤ pyRound2 q.checkout_time
  | _ => True

/-- The inductive invariant of the shopping02.py event loop. -/
structure SysInv (s : SysState) : Prop where
  noError : s.error = false
  maxsize : s.queue.maxsize = 5
  workersLen : s.workers.length = 5
  statsLen : s.stats.length = 5
  producedLe : s.produced ≤ 20
  unfinishedEq : s.queue.unfinished =
    s.queue.items.length + (s.workers.map holdCount).sum
  conservation : s.stats.sum + (s.queue.items.map customerTime).sum
      + (s.workers.map sleepTime).sum
    = ((List.range s.produced).map fun k => customerTime (generate_customer k)).sum
  itemsCatalog : ∀ c ∈ s.queue.items, c.products = all_products
  sleepOk : ∀ w ∈ s.workers, SleepOk w
  statsNonneg : ∀ q ∈ s.stats, 0 ≤ q
  coordProduced : s.coord ≠ .awaitingProducer → s.produced = 20
  coordJoined : (s.coord = .joined ∨ s.coord = .finished) → s.queue.unfinished = 0
  cancelledCoord : (∃ w ∈ s.workers, w = .cancelled) → s.coord = .finished
  finishedCancelled : s.coord = .finished → ∀ w ∈ s.workers, w = .cancelled
  noReturn : ∀ w ∈ s.workers, w ≠ .returned

/-! ## Concrete schedules (used to exhibit reachable states) -/

/-- One full item cycle under a sequential schedule: the producer enqueues
    one customer, then cashier 0 dequeues it and sleeps through its four
    products. -/
def cycleLabels : List Label :=
  [.produce, .wget 0, .wake 0, .wake 0, .wake 0, .wake 0]

/-- `n` sequential item cycles. -/
def cycleSched : ℕ → List Label
  | 0 => []
  | n + 1 => cycleSched n ++ cycleLabels

/-- The state between item cycles of the sequential schedule: queue empty,
    `n` customers produced and fully processed, all of cashier 0's time `t`
    in slot 0. -/
def mkLoopState (n : ℕ) (t : ℚ) : SysState :=
  { queue := ⟨[], 5, 0⟩
    produced := n
    workers := [.atGet, .atGet, .atGet, .atGet, .atGet]
    stats := [t, 0, 0, 0, 0]
    coord := .awaitingProducer
    error := false }

/-- A complete sequential run of `main` up to the return of
    `customer_queue.join()`. -/
def joinSched : List Label :=
  cycleSched 20 ++ [.producerDone, .joinReturn]

/-- The state of that run once `join()` has returned. -/
def joinedState : SysState :=
  { mkLoopState 20 40 with coord := .joined }

/-- The state of that run after `main` has cancelled every cashier. -/
def finishedState : SysState :=
  { mkLoopState 20 40 with
      coord := .finished
      workers := [.cancelled, .cancelled, .cancelled, .cancelled, .cancelled] }

/-! ## Helper lemmas -/

/-- `round(q, 2)` of a non-negative value is non-negative. -/
theorem pyRound2_nonneg {q : ℚ} (hq : 0 ≤ q) : 0 ≤ pyRound2 q := by
  have h0 : (0:ℤ) ≤ ⌊q * 100⌋ := Int.floor_nonneg.mpr (by positivity)
  have h1 : (0:ℚ) ≤ (⌊q * 100⌋ : ℚ) := by exact_mod_cast h0
  unfold pyRound2
  split
  · positivity
  · split
    · rw [Int.cast_add, Int.cast_one]
      have h2 : (0:ℚ) ≤ (⌊q * 100⌋ : ℚ) + 1 := by linarith
      positivity
    · split
      · positivity
      · rw [Int.cast_add, Int.cast_one]
        have h2 : (0:ℚ) ≤ (⌊q * 100⌋ : ℚ) + 1 := by linarith
        positivity

theorem pyRound2_one : pyRound2 1 = 1 := by
  unfold pyRound2
  norm_num

theorem pyRound2_twoFifths : pyRound2 (2/5) = 2/5 := by
  unfold pyRound2
  norm_num

theorem pyRound2_oneFifth : pyRound2 (1/5) = 1/5 := by
  unfold pyRound2
  norm_num

theorem sum_map_set {α M : Type} [AddCommMonoid M] (f : α → M) (l : List α) (i : ℕ)
    (x : α) (h : i < l.length) :
    ((l.set i x).map f).sum + f l[i] = (l.map f).sum + f x := by
  induction l generalizing i with
  | nil => simp at h
  | cons a l ih =>
    cases i with
    | zero =>
        simp only [List.set, List.map_cons, List.sum_cons, List.getElem_cons_zero]
        abel
    | succ i =>
        simp only [List.set, List.map_cons, List.sum_cons, List.getElem_cons_succ,
          add_assoc]
        rw [ih i (by simpa using h)]

theorem sum_set_add {M : Type} [AddCommMonoid M] (l : List M) (i : ℕ) (x : M)
    (h : i < l.length) :
    (l.set i x).sum + l[i] = l.sum + x := by
  have h2 := sum_map_set id l i x h
  simpa using h2

theorem mem_of_getElemOpt {α : Type} {l : List α} {i : ℕ} {a : α}
    (h : l[i]? = some a) : a ∈ l := by
  rcases List.getElem?_eq_some.mp h with ⟨hi, rfl⟩
  exact List.getElem_mem hi

/-- The invariant holds when `main` starts. -/
theorem sysInv_init : SysInv initSys := by
  constructor
  · rfl
  · rfl
  · rfl
  · rfl
  · decide
  · decide
  · simp [initSys, initQueue, holdCount, sleepTime, List.map_replicate]
  · intro c hc; simp [initSys, initQueue] at hc
  · intro w hw
    simp [initSys, List.eq_of_mem_replicate hw, SleepOk]
  · intro q hq
    simp [initSys] at hq
    simp [hq]
  · intro hc; exact absurd rfl hc
  · intro hc; rcases hc with hc | hc <;> exact absurd hc (by decide)
  · intro hc
    rcases hc with ⟨w, hw, rfl⟩
    have := List.eq_of_mem_replicate hw
    exact absurd this (by decide)
  · intro hc; exact absurd hc (by decide)
  · intro w hw
    simp [initSys] at hw
    simp [hw]

/-- The invariant is preserved by one producer-loop iteration. -/
theorem sysInv_produce {s s' : SysState} (inv : SysInv s)
    (h : sysStep s .produce = some s') : SysInv s' := by
  simp only [sysStep] at h
  split at h
  case isFalse => exact Option.noConfusion h
  case isTrue hc =>
    obtain ⟨h1, h2⟩ := hc
    injection h with h
    subst h
    constructor
    · exact inv.noError
    · exact inv.maxsize
    · exact inv.workersLen
    · exact inv.statsLen
    · show s.produced + 1 ≤ 20
      omega
    · have he := inv.unfinishedEq
      simp only [List.length_append, List.length_cons, List.length_nil]
      omega
    · have hcons := inv.conservation
      simp only [List.range_succ, List.map_append, List.sum_append,
        List.map_cons, List.map_nil, List.sum_cons, List.sum_nil]
      linarith
    · intro c hmem
      rcases List.mem_append.mp hmem with hmem | hmem
      · exact inv.itemsCatalog c hmem
      · simp only [List.mem_singleton] at hmem
        subst hmem
        rfl
    · exact inv.sleepOk
    · exact inv.statsNonneg
    · intro hne
      have := inv.coordProduced hne
      omega
    · intro hj
      have hne : s.coord ≠ CoordPhase.awaitingProducer := by
        rcases hj with hj | hj
        · have hj2 : s.coord = CoordPhase.joined := hj
          simp [hj2]
        · have hj2 : s.coord = CoordPhase.finished := hj
          simp [hj2]
      have := inv.coordProduced hne
      omega
    · exact inv.cancelledCoord
    · exact inv.finishedCancelled
    · exact inv.noReturn

/-- The invariant is preserved when cashier `i`'s `await queue.get()`
    completes. -/
theorem sysInv_wget {s s' : SysState} {i : ℕ} (inv : SysInv s)
    (h : sysStep s (.wget i) = some s') : SysInv s' := by
  simp only [sysStep] at h
  split at h
  case h_2 => exact Option.noConfusion h
  case h_1 hw =>
    obtain ⟨hi, hval⟩ := List.getElem?_eq_some.mp hw
    split at h
    case h_1 => exact Option.noConfusion h
    case h_2 c rest hq =>
      have hcat : c.products = all_products :=
        inv.itemsCatalog c (by rw [hq]; exact List.mem_cons_self c rest)
      split at h
      case h_1 hp =>
        rw [hcat] at hp
        exact absurd hp (by simp [all_products])
      case h_2 p ps hp =>
        injection h with h
        subst h
        have hsumHold := sum_map_set holdCount s.workers i (.sleeping p ps) hi
        rw [hval] at hsumHold
        simp only [holdCount, add_zero] at hsumHold
        have hsumSleep := sum_map_set sleepTime s.workers i (.sleeping p ps) hi
        rw [hval] at hsumSleep
        simp only [sleepTime, add_zero] at hsumSleep
        have hct : customerTime c
            = pyRound2 p.checkout_time + (ps.map fun q => pyRound2 q.checkout_time).sum := by
          simp [customerTime, hp]
        constructor
        · exact inv.noError
        · exact inv.maxsize
        · show (s.workers.set i _).length = 5
          rw [List.length_set]
          exact inv.workersLen
        · exact inv.statsLen
        · exact inv.producedLe
        · show s.queue.unfinished
            = rest.length + ((s.workers.set i (.sleeping p ps)).map holdCount).sum
          have he := inv.unfinishedEq
          rw [hq] at he
          simp only [List.length_cons] at he
          omega
        · show s.stats.sum + (rest.map customerTime).sum
              + ((s.workers.set i (.sleeping p ps)).map sleepTime).sum
            = ((List.range s.produced).map fun k => customerTime (generate_customer k)).sum
          have hcons := inv.conservation
          rw [hq] at hcons
          simp only [List.map_cons, List.sum_cons] at hcons
          rw [hct] at hcons
          linarith
        · intro c2 hc2
          exact inv.itemsCatalog c2 (by rw [hq]; exact List.mem_cons_of_mem c hc2)
        · intro w hwmem
          rcases List.mem_or_eq_of_mem_set hwmem with hmem | rfl
          · exact inv.sleepOk w hmem
          · have h5 : p :: ps = all_products := by rw [← hp, hcat]
            injection h5 with h5a h5b
            subst h5a
            subst h5b
            simp only [SleepOk]
            refine ⟨pyRound2_nonneg (by norm_num), ?_⟩
            intro q hq2
            fin_cases hq2 <;> exact pyRound2_nonneg (by norm_num)
        · exact inv.statsNonneg
        · exact inv.coordProduced
        · exact inv.coordJoined
        · intro hex
          obtain ⟨w, hwmem, hwc⟩ := hex
          rcases List.mem_or_eq_of_mem_set hwmem with hmem | rfl
          · exact inv.cancelledCoord ⟨w, hmem, hwc⟩
          · exact WorkerPhase.noConfusion hwc
        · intro hf
          have hall := inv.finishedCancelled hf
          have hmem : WorkerPhase.atGet ∈ s.workers := hval ▸ List.getElem_mem hi
          exact absurd (hall _ hmem) (by simp)
        · intro w hwmem
          rcases List.mem_or_eq_of_mem_set hwmem with hmem | rfl
          · exact inv.noReturn w hmem
          · exact fun hcon => WorkerPhase.noConfusion hcon


/-- The invariant is preserved when cashier `i`'s current
    `await asyncio.sleep` completes. -/
theorem sysInv_wake {s s' : SysState} {i : ℕ} (inv : SysInv s)
    (h : sysStep s (.wake i) = some s') : SysInv s' := by
  simp only [sysStep] at h
  split at h
  case h_2 => exact Option.noConfusion h
  case h_1 p rest hw =>
    obtain ⟨hi, hval⟩ := List.getElem?_eq_some.mp hw
    have hiStats : i < s.stats.length := by
      rw [inv.statsLen]
      rw [inv.workersLen] at hi
      exact hi
    have hgetD : s.stats.getD i 0 = s.stats[i] := List.getD_eq_getElem s.stats 0 hiStats
    have hOk : SleepOk (.sleeping p rest) :=
      inv.sleepOk _ (hval ▸ List.getElem_mem hi)
    simp only [SleepOk] at hOk
    obtain ⟨hp0, hrest0⟩ := hOk
    have hstatsum := sum_set_add s.stats i (s.stats.getD i 0 + pyRound2 p.checkout_time) hiStats
    rw [hgetD] at hstatsum
    have hstatmem : s.stats[i] ∈ s.stats := List.getElem_mem hiStats
    have hstatnn : 0 ≤ s.stats[i] := inv.statsNonneg _ hstatmem
    have hhold1 : 1 ≤ (s.workers.map holdCount).sum := by
      have hmem : (1:ℕ) ∈ s.workers.map holdCount := by
        have hm2 := List.mem_map_of_mem holdCount (hval ▸ List.getElem_mem hi)
        simpa [holdCount] using hm2
      exact List.le_sum_of_mem hmem
    cases rest with
    | nil =>
      have hunf : s.queue.unfinished ≠ 0 := by
        have he := inv.unfinishedEq
        omega
      replace h : some (sysTaskDone { s with
          stats := s.stats.set i (s.stats.getD i 0 + pyRound2 p.checkout_time)
          workers := s.workers.set i WorkerPhase.atGet }) = some s' := h
      simp only [sysTaskDone] at h
      rw [if_neg hunf] at h
      injection h with h
      subst h
      have hsumHold := sum_map_set holdCount s.workers i .atGet hi
      rw [hval] at hsumHold
      simp only [holdCount, add_zero] at hsumHold
      have hsumSleep := sum_map_set sleepTime s.workers i .atGet hi
      rw [hval] at hsumSleep
      simp only [sleepTime, List.map_nil, List.sum_nil, add_zero] at hsumSleep
      constructor
      · exact inv.noError
      · exact inv.maxsize
      · show ((s.workers.set i .atGet).length) = 5
        rw [List.length_set]
        exact inv.workersLen
      · show ((s.stats.set i (s.stats.getD i 0 + pyRound2 p.checkout_time)).length) = 5
        rw [List.length_set]
        exact inv.statsLen
      · exact inv.producedLe
      · show s.queue.unfinished - 1
          = s.queue.items.length + ((s.workers.set i .atGet).map holdCount).sum
        have he := inv.unfinishedEq
        omega
      · show (s.stats.set i (s.stats.getD i 0 + pyRound2 p.checkout_time)).sum
            + (s.queue.items.map customerTime).sum
            + ((s.workers.set i .atGet).map sleepTime).sum
          = ((List.range s.produced).map fun k => customerTime (generate_customer k)).sum
        have hcons := inv.conservation
        rw [hgetD] at *
        linarith
      · exact inv.itemsCatalog
      · intro w hwmem
        rcases List.mem_or_eq_of_mem_set hwmem with hmem | rfl
        · exact inv.sleepOk w hmem
        · simp [SleepOk]
      · intro x hx
        rcases List.mem_or_eq_of_mem_set hx with hmem | rfl
        · exact inv.statsNonneg x hmem
        · rw [hgetD]
          exact add_nonneg hstatnn hp0
      · exact inv.coordProduced
      · intro hj
        exact absurd (inv.coordJoined hj) hunf
      · intro hex
        obtain ⟨w, hwmem, hwc⟩ := hex
        rcases List.mem_or_eq_of_mem_set hwmem with hmem | rfl
        · exact inv.cancelledCoord ⟨w, hmem, hwc⟩
        · exact WorkerPhase.noConfusion hwc
      · intro hf
        have hall := inv.finishedCancelled hf
        have hmem : WorkerPhase.sleeping p [] ∈ s.workers := hval ▸ List.getElem_mem hi
        exact absurd (hall _ hmem) (by simp)
      · intro w hwmem
        rcases List.mem_or_eq_of_mem_set hwmem with hmem | rfl
        · exact inv.noReturn w hmem
        · exact fun hcon => WorkerPhase.noConfusion hcon
    | cons q rest2 =>
      replace h : some { s with
          stats := s.stats.set i (s.stats.getD i 0 + pyRound2 p.checkout_time)
          workers := s.workers.set i (WorkerPhase.sleeping q rest2) } = some s' := h
      injection h with h
      subst h
      have hsumHold := sum_map_set holdCount s.workers i (.sleeping q rest2) hi
      rw [hval] at hsumHold
      simp only [holdCount] at hsumHold
      have hsumSleep := sum_map_set sleepTime s.workers i (.sleeping q rest2) hi
      rw [hval] at hsumSleep
      simp only [sleepTime, List.map_cons, List.sum_cons] at hsumSleep
      constructor
      · exact inv.noError
      · exact inv.maxsize
      · show ((s.workers.set i (.sleeping q rest2)).length) = 5
        rw [List.length_set]
        exact inv.workersLen
      · show ((s.stats.set i (s.stats.getD i 0 + pyRound2 p.checkout_time)).length) = 5
        rw [List.length_set]
        exact inv.statsLen
      · exact inv.producedLe
      · show s.queue.unfinished
          = s.queue.items.length + ((s.workers.set i (.sleeping q rest2)).map holdCount).sum
        have he := inv.unfinishedEq
        omega
      · show (s.stats.set i (s.stats.getD i 0 + pyRound2 p.checkout_time)).sum
            + (s.queue.items.map customerTime).sum
            + ((s.workers.set i (.sleeping q rest2)).map sleepTime).sum
          = ((List.range s.produced).map fun k => customerTime (generate_customer k)).sum
        have hcons := inv.conservation
        rw [hgetD] at *
        linarith
      · exact inv.itemsCatalog
      · intro w hwmem
        rcases List.mem_or_eq_of_mem_set hwmem with hmem | rfl
        · exact inv.sleepOk w hmem
        · exact ⟨hrest0 q (List.mem_cons_self q rest2),
            fun x hx => hrest0 x (List.mem_cons_of_mem q hx)⟩
      · intro x hx
        rcases List.mem_or_eq_of_mem_set hx with hmem | rfl
        · exact inv.statsNonneg x hmem
        · rw [hgetD]
          exact add_nonneg hstatnn hp0
      · exact inv.coordProduced
      · exact inv.coordJoined
      · intro hex
        obtain ⟨w, hwmem, hwc⟩ := hex
        rcases List.mem_or_eq_of_mem_set hwmem with hmem | rfl
        · exact inv.cancelledCoord ⟨w, hmem, hwc⟩
        · exact WorkerPhase.noConfusion hwc
      · intro hf
        have hall := inv.finishedCancelled hf
        have hmem : WorkerPhase.sleeping p (q :: rest2) ∈ s.workers := hval ▸ List.getElem_mem hi
        exact absurd (hall _ hmem) (by simp)
      · intro w hwmem
        rcases List.mem_or_eq_of_mem_set hwmem with hmem | rfl
        · exact inv.noReturn w hmem
        · exact fun hcon => WorkerPhase.noConfusion hcon

/-- The invariant is preserved when `await customer_producer` returns. -/
theorem sysInv_producerDone {s s' : SysState} (inv : SysInv s)
    (h : sysStep s .producerDone = some s') : SysInv s' := by
  simp only [sysStep] at h
  split at h
  case isFalse => exact Option.noConfusion h
  case isTrue hc =>
    obtain ⟨hcoord, hprod⟩ := hc
    injection h with h
    subst h
    constructor
    · exact inv.noError
    · exact inv.maxsize
    · exact inv.workersLen
    · exact inv.statsLen
    · exact inv.producedLe
    · exact inv.unfinishedEq
    · exact inv.conservation
    · exact inv.itemsCatalog
    · exact inv.sleepOk
    · exact inv.statsNonneg
    · intro _
      exact hprod
    · intro hj
      rcases hj with hj | hj <;> exact absurd (show CoordPhase.awaitingJoin = _ from hj) (by simp)
    · intro hex
      have hfin := inv.cancelledCoord hex
      rw [hcoord] at hfin
      exact absurd hfin (by simp)
    · intro hf
      exact absurd (show CoordPhase.awaitingJoin = _ from hf) (by simp)
    · exact inv.noReturn

/-- The invariant is preserved when `await customer_queue.join()` returns. -/
theorem sysInv_joinReturn {s s' : SysState} (inv : SysInv s)
    (h : sysStep s .joinReturn = some s') : SysInv s' := by
  simp only [sysStep] at h
  split at h
  case isFalse => exact Option.noConfusion h
  case isTrue hc =>
    obtain ⟨hcoord, hunf⟩ := hc
    injection h with h
    subst h
    constructor
    · exact inv.noError
    · exact inv.maxsize
    · exact inv.workersLen
    · exact inv.statsLen
    · exact inv.producedLe
    · exact inv.unfinishedEq
    · exact inv.conservation
    · exact inv.itemsCatalog
    · exact inv.sleepOk
    · exact inv.statsNonneg
    · intro _
      exact inv.coordProduced (by rw [hcoord]; simp)
    · intro _
      exact hunf
    · intro hex
      have hfin := inv.cancelledCoord hex
      rw [hcoord] at hfin
      exact absurd hfin (by simp)
    · intro hf
      exact absurd (show CoordPhase.joined = _ from hf) (by simp)
    · exact inv.noReturn

/-- The invariant is preserved by the cancellation loop of `main`. -/
theorem sysInv_cancelAll {s s' : SysState} (inv : SysInv s)
    (h : sysStep s .cancelAll = some s') : SysInv s' := by
  simp only [sysStep] at h
  split at h
  case isFalse => exact Option.noConfusion h
  case isTrue hcoord =>
    injection h with h
    subst h
    have hunf : s.queue.unfinished = 0 := inv.coordJoined (Or.inl hcoord)
    have hitems : s.queue.items = [] := by
      have he := inv.unfinishedEq
      have : s.queue.items.length = 0 := by omega
      exact List.eq_nil_of_length_eq_zero this
    have hsleep0 : ∀ w ∈ s.workers, sleepTime w = 0 := by
      intro w hwmem
      have hhold : (s.workers.map holdCount).sum = 0 := by
        have he := inv.unfinishedEq
        omega
      have hw0 : holdCount w = 0 := by
        rw [List.sum_eq_zero_iff] at hhold
        exact hhold _ (List.mem_map_of_mem holdCount hwmem)
      cases w with
      | sleeping p rest => exact absurd hw0 (by simp [holdCount])
      | atGet => simp [sleepTime]
      | returned => simp [sleepTime]
      | cancelled => simp [sleepTime]
    constructor
    · exact inv.noError
    · exact inv.maxsize
    · show (s.workers.map fun _ => WorkerPhase.cancelled).length = 5
      rw [List.length_map]
      exact inv.workersLen
    · exact inv.statsLen
    · exact inv.producedLe
    · show s.queue.unfinished
        = s.queue.items.length + ((s.workers.map fun _ => WorkerPhase.cancelled).map holdCount).sum
      have hz : ((s.workers.map fun _ => WorkerPhase.cancelled).map holdCount).sum = 0 := by
        apply List.sum_eq_zero
        intro x hx
        simp only [List.map_map, Function.comp, List.mem_map] at hx
        obtain ⟨w, _, hw⟩ := hx
        simp [holdCount] at hw
        exact hw.symm
      rw [hitems, hunf, hz]
      rfl
    · show s.stats.sum + (s.queue.items.map customerTime).sum
          + ((s.workers.map fun _ => WorkerPhase.cancelled).map sleepTime).sum
        = ((List.range s.produced).map fun k => customerTime (generate_customer k)).sum
      have hcons := inv.conservation
      have hz2 : ((s.workers.map fun _ => WorkerPhase.cancelled).map sleepTime).sum = 0 := by
        apply List.sum_eq_zero
        intro x hx
        simp only [List.map_map, Function.comp, List.mem_map] at hx
        obtain ⟨w, _, hw⟩ := hx
        simp [sleepTime] at hw
        exact hw.symm
      have hz3 : (s.workers.map sleepTime).sum = 0 := by
        apply List.sum_eq_zero
        intro x hx
        obtain ⟨w, hwmem, hw⟩ := List.mem_map.mp hx
        rw [← hw]
        exact hsleep0 w hwmem
      rw [hz2]
      rw [hz3] at hcons
      linarith
    · intro c hc
      rw [hitems] at hc
      exact absurd hc (List.not_mem_nil c)
    · intro w hwmem
      obtain ⟨w2, _, hw⟩ := List.mem_map.mp hwmem
      rw [← hw]
      simp [SleepOk]
    · exact inv.statsNonneg
    · intro _
      exact inv.coordProduced (by rw [hcoord]; simp)
    · intro _
      exact hunf
    · intro _
      rfl
    · intro _ w hwmem
      obtain ⟨w2, _, hw⟩ := List.mem_map.mp hwmem
      exact hw.symm
    · intro w hwmem
      obtain ⟨w2, _, hw⟩ := List.mem_map.mp hwmem
      rw [← hw]
      simp

/-- The invariant is preserved by every atomic step of the event loop. -/
theorem sysInv_step {s s' : SysState} {l : Label} (inv : SysInv s)
    (h : sysStep s l = some s') : SysInv s' := by
  cases l with
  | produce => exact sysInv_produce inv h
  | wget i => exact sysInv_wget inv h
  | wake i => exact sysInv_wake inv h
  | producerDone => exact sysInv_producerDone inv h
  | joinReturn => exact sysInv_joinReturn inv h
  | cancelAll => exact sysInv_cancelAll inv h

/-- Running any schedule preserves the invariant. -/
theorem runFrom_inv {ls : List Label} : ∀ {s s' : SysState},
    SysInv s → runFrom s ls = some s' → SysInv s' := by
  induction ls with
  | nil =>
      intro s s' inv h
      injection h with h
      exact h ▸ inv
  | cons l ls ih =>
      intro s s' inv h
      simp only [runFrom, List.foldlM_cons] at h
      cases hstep : sysStep s l with
      | none =>
          rw [hstep] at h
          exact Option.noConfusion h
      | some s1 =>
          rw [hstep] at h
          exact ih (sysInv_step inv hstep) h

/-- Every reachable state of shopping02.py's event loop satisfies the
    invariant. -/
theorem reachable_inv {s : SysState} (h : Reachable s) : SysInv s := by
  obtain ⟨ls, hr⟩ := h
  exact runFrom_inv sysInv_init hr

/-- Splitting a schedule. -/
theorem runFrom_append (s : SysState) (l1 l2 : List Label) :
    runFrom s (l1 ++ l2) = (runFrom s l1).bind fun s1 => runFrom s1 l2 := by
  simp [runFrom, List.foldlM_append]

/-- One sequential item cycle: produce customer `k`, let cashier 0 process
    it end to end.  Slot 0 gains the customer's 2.0 seconds. -/
theorem cycleStep (k : ℕ) (hk : k < 20) (t : ℚ) :
    runFrom (mkLoopState k t) cycleLabels = some (mkLoopState (k + 1) (t + 2)) := by
  simp only [cycleLabels, runFrom, List.foldlM_cons, List.foldlM_nil]
  simp [sysStep, mkLoopState, hk, generate_customer, all_products, sysTaskDone,
    pyRound2_one, pyRound2_twoFifths, pyRound2_oneFifth, List.set, List.getD]
  have h15 : pyRound2 (5:ℚ)⁻¹ = 5⁻¹ := by
    rw [show ((5:ℚ)⁻¹) = 1/5 by norm_num]
    exact pyRound2_oneFifth
  rw [h15]
  ring

/-- `n` sequential item cycles from the start of `main`. -/
theorem cycleSched_run (n : ℕ) (hn : n ≤ 20) :
    runSys (cycleSched n) = some (mkLoopState n (2 * n)) := by
  induction n with
  | zero =>
      show runFrom initSys [] = _
      simp [runFrom, initSys, mkLoopState, initQueue, List.replicate]
  | succ n ih =>
      have hn2 : n ≤ 20 := by omega
      have hlt : n < 20 := by omega
      show runSys (cycleSched n ++ cycleLabels) = _
      rw [runSys, runFrom_append]
      rw [show runFrom initSys (cycleSched n) = some (mkLoopState n (2 * n)) from ih hn2]
      rw [Option.some_bind]
      rw [cycleStep n hlt (2 * n)]
      have harg : (2:ℚ) * n + 2 = 2 * ((n + 1 : ℕ) : ℚ) := by push_cast; ring
      rw [harg]

/-- The sequential run reaches the moment `join()` returns. -/
theorem joinSched_run : runSys joinSched = some joinedState := by
  rw [joinSched, runSys, runFrom_append]
  have h20 : runFrom initSys (cycleSched 20) = some (mkLoopState 20 40) := by
    have := cycleSched_run 20 (by omega)
    rw [runSys] at this
    rw [this]
    norm_num
  rw [h20, Option.some_bind]
  simp [runFrom, List.foldlM_cons, List.foldlM_nil, sysStep, mkLoopState, joinedState]

/-- The sequential run reaches the state after `main` cancels the cashiers. -/
theorem cancelSched_run : runSys (joinSched ++ [.cancelAll]) = some finishedState := by
  rw [runSys, runFrom_append]
  have hj := joinSched_run
  rw [runSys] at hj
  rw [hj, Option.some_bind]
  simp [runFrom, List.foldlM_cons, List.foldlM_nil, sysStep, joinedState, mkLoopState,
    finishedState, List.map]

/-! ## Generator lemmas -/

theorem genFrom_length : ∀ (fuel count total : ℕ), total - count = fuel →
    (genFrom count total).length = fuel := by
  intro fuel
  induction fuel with
  | zero =>
      intro count total h
      rw [genFrom, dif_neg (by omega)]
      rfl
  | succ n ih =>
      intro count total h
      rw [genFrom, dif_pos (by omega)]
      simp [ih (count + 1) total (by omega)]

theorem genFrom_getElem : ∀ (fuel count total : ℕ), total - count = fuel →
    ∀ k, k < fuel → (genFrom count total)[k]? = some (generate_customer (count + k)) := by
  intro fuel
  induction fuel with
  | zero =>
      intro count total h k hk
      omega
  | succ n ih =>
      intro count total h k hk
      rw [genFrom, dif_pos (by omega)]
      cases k with
      | zero => simp
      | succ k =>
          rw [List.getElem?_cons_succ]
          rw [ih (count + 1) total (by omega) k (by omega)]
          have harg : count + 1 + k = count + (k + 1) := by omega
          rw [harg]

/-! ## Queue run lemmas -/

theorem putAll_spec : ∀ (cs : List Customer) (s : QueueState),
    s.items.length + cs.length ≤ s.maxsize →
    putAll s cs = some { s with items := s.items ++ cs,
                                unfinished := s.unfinished + cs.length } := by
  intro cs
  induction cs with
  | nil =>
      intro s h
      simp [putAll]
  | cons c cs ih =>
      intro s h
      simp only [putAll, applyQOp]
      rw [if_pos (by simp at h ⊢; omega)]
      rw [Option.some_bind]
      rw [ih _ (by simp at h ⊢; omega)]
      simp [List.append_assoc]
      omega

theorem getAll_spec : ∀ (n : ℕ) (s : QueueState), n ≤ s.items.length →
    getAll s n = some (s.items.take n, { s with items := s.items.drop n }) := by
  intro n
  induction n with
  | zero =>
      intro s h
      simp [getAll]
  | succ n ih =>
      intro s h
      cases hitems : s.items with
      | nil => rw [hitems] at h; simp at h
      | cons c rest =>
          simp only [getAll, hitems]
          rw [ih { s with items := rest } (by rw [hitems] at h; simp at h ⊢; omega)]
          simp

/-! ## Queue trace accounting -/

theorem applyQOps_counts : ∀ (t : List QOp) (s s' : QueueState),
    applyQOps s t = some s' →
    s'.unfinished + countDone t = s.unfinished + countPut t := by
  intro t
  induction t with
  | nil =>
      intro s s' h
      injection h with h
      subst h
      simp [countDone, countPut]
  | cons op t ih =>
      intro s s' h
      simp only [applyQOps, List.foldlM_cons] at h
      cases hop : applyQOp s op with
      | none => rw [hop] at h; exact Option.noConfusion h
      | some s1 =>
          rw [hop] at h
          have hrec := ih s1 s' h
          cases op with
          | put c =>
              simp only [applyQOp] at hop
              split at hop
              case isFalse => exact Option.noConfusion hop
              case isTrue =>
                injection hop with hop
                subst hop
                simp [countDone, countPut, List.countP_cons] at *
                omega
          | get =>
              simp only [applyQOp] at hop
              split at hop
              case h_1 => exact Option.noConfusion hop
              case h_2 =>
                injection hop with hop
                subst hop
                simp [countDone, countPut, List.countP_cons] at *
                omega
          | task_done =>
              simp only [applyQOp] at hop
              split at hop
              case isTrue => exact Option.noConfusion hop
              case isFalse hz =>
                injection hop with hop
                subst hop
                simp [countDone, countPut, List.countP_cons] at *
                omega

/-! ## Claim theorems -/

/-- C1: the queue's `join()` returns exactly when the number of `task_done`
(`mark_done`) calls equals the number of successful `put` calls.  Along any
completed trace of queue operations from a fresh queue, the queue is
join-ready (`join` returns rather than staying suspended) iff the trace's
`task_done` count equals its `put` count: `join` never returns while some
put item is unfinished, and is not blocked once every put has been matched
by a `task_done`. -/
theorem C1_join_iff_counts (C : ℕ) (t : List QOp) (s : QueueState)
    (h : applyQOps (initQueue C) t = some s) :
    joinReady s ↔ countDone t = countPut t := by
  have hc := applyQOps_counts t (initQueue C) s h
  simp only [initQueue] at hc
  unfold joinReady
  omega

/-- Witness for C1 on the trace put–get–task_done. -/
theorem C1_join_iff_counts_witness :
    joinReady ⟨[], 5, 0⟩ ↔
      countDone [QOp.put ⟨0, []⟩, QOp.get, QOp.task_done]
        = countPut [QOp.put ⟨0, []⟩, QOp.get, QOp.task_done] :=
  C1_join_iff_counts 5 [QOp.put ⟨0, []⟩, QOp.get, QOp.task_done] ⟨[], 5, 0⟩ rfl

/-- C3: for every target count `N`, the producer enqueues exactly `N`
customers with ascending identifiers `0..N-1` in that order, each carrying
exactly the fixed four-product catalog, and returns `N`. -/
theorem C3_generator_spec (N : ℕ) :
    (customer_generation_items N).length = N ∧
    customer_generation_ret N = N ∧
    ∀ k, k < N → (customer_generation_items N)[k]? = some ⟨k, all_products⟩ := by
  refine ⟨?_, rfl, ?_⟩
  · exact genFrom_length N 0 N (by omega)
  · intro k hk
    have hg := genFrom_getElem N 0 N (by omega) k (by omega)
    simpa [generate_customer] using hg

/-- Witness for C3 at `N = 3`, `k = 1`. -/
theorem C3_generator_spec_witness :
    (customer_generation_items 3).length = 3 ∧
    customer_generation_ret 3 = 3 ∧
    (customer_generation_items 3)[1]? = some ⟨1, all_products⟩ :=
  ⟨(C3_generator_spec 3).1, (C3_generator_spec 3).2.1,
    (C3_generator_spec 3).2.2 1 (by omega)⟩

/-- C4: FIFO — for every sequence of `N` puts followed by `N` gets on the
queue with no interleaving (all puts fit, so none suspends), the `N` get
results are the `N` put items in exactly the order they were put. -/
theorem C4_fifo (C : ℕ) (cs : List Customer) (h : cs.length ≤ C) :
    ((putAll (initQueue C) cs).bind fun q => (getAll q cs.length).map Prod.fst)
      = some cs := by
  rw [putAll_spec cs (initQueue C) (by simp [initQueue]; omega)]
  rw [Option.some_bind]
  rw [getAll_spec cs.length _ (by simp [initQueue])]
  simp [initQueue]

/-- Witness for C4 with two customers on a capacity-2 queue. -/
theorem C4_fifo_witness :
    ((putAll (initQueue 2) [⟨0, []⟩, ⟨1, []⟩]).bind fun q =>
        (getAll q 2).map Prod.fst) = some [⟨0, []⟩, ⟨1, []⟩] :=
  C4_fifo 2 [⟨0, []⟩, ⟨1, []⟩] (by decide)

/-- C9: the async iterator demo is a bounded generator: the `k`-th call to
`__anext__` (counter state `k - 1`) returns `k` for `1 ≤ k ≤ 10`, every
call once the counter has reached 10 raises `StopAsyncIteration`, and the
`async for` loop in asyncio02.py's `main` therefore yields exactly
`1, 2, ..., 10` in order and then terminates. -/
theorem C9_async_iterator :
    (∀ k, 1 ≤ k → k ≤ 10 → anext (k - 1) = some (k, k)) ∧
    (∀ c, 10 ≤ c → anext c = none) ∧
    asyncForItems 0 = [1, 2, 3, 4, 5, 6, 7, 8, 9, 10] := by
  refine ⟨?_, ?_, ?_⟩
  · intro k h1 h10
    unfold anext
    rw [if_neg (by omega)]
    have hk : k - 1 + 1 = k := by omega
    rw [hk]
  · intro c hc
    unfold anext
    rw [if_pos (by omega)]
  · simp [asyncForItems, anext]

/-- Witness for C9 at the fifth and a post-exhaustion call. -/
theorem C9_async_iterator_witness :
    anext 4 = some (5, 5) ∧ anext 12 = none :=
  ⟨C9_async_iterator.1 5 (by omega) (by omega), C9_async_iterator.2.1 12 (by omega)⟩

theorem pyRound2_invFive : pyRound2 (5:ℚ)⁻¹ = 5⁻¹ := by
  rw [show ((5:ℚ)⁻¹) = 1/5 by norm_num]
  exact pyRound2_oneFifth

/-- Each generated customer takes exactly 2.0 rounded seconds. -/
theorem customerTime_generate (k : ℕ) : customerTime (generate_customer k) = 2 := by
  simp [customerTime, generate_customer, all_products, pyRound2_one,
    pyRound2_twoFifths, pyRound2_oneFifth, pyRound2_invFive]
  norm_num

/-- The 20 generated customers take 40.0 rounded seconds in total. -/
theorem range20_sum :
    ((List.range 20).map fun k => customerTime (generate_customer k)).sum = 40 := by
  simp [customerTime_generate]
  norm_num

/-- C5: the queue's fatal accounting error (`task_done()` called more times
than successful puts warrant) is unreachable in every execution of
shopping02.py, including after cancellation: no reachable state has the
error flag set, and `_unfinished_tasks` always equals the buffered items
plus the items currently held by cashiers (each cashier calls `task_done`
exactly once per item it dequeued and fully processed). -/
theorem C5_no_accounting_error (s : SysState) (h : Reachable s) :
    s.error = false ∧
    s.queue.unfinished = s.queue.items.length + (s.workers.map holdCount).sum :=
  ⟨(reachable_inv h).noError, (reachable_inv h).unfinishedEq⟩

/-- Witness for C5 at the state after join returned and all cashiers were
cancelled. -/
theorem C5_no_accounting_error_witness :
    finishedState.error = false ∧
    finishedState.queue.unfinished
      = finishedState.queue.items.length + (finishedState.workers.map holdCount).sum :=
  C5_no_accounting_error finishedState ⟨joinSched ++ [Label.cancelAll], cancelSched_run⟩

/-- C6: `main` issues cancellation only after the producer has completed and
`join()` has returned: in every reachable state in which some cashier has
been cancelled, the coordinator has passed the join (it is `finished`), all
20 customers were produced, and the unfinished-work count is zero — no
produced item is still unprocessed. -/
theorem C6_cancel_only_after_join (s : SysState) (h : Reachable s)
    (hc : ∃ w ∈ s.workers, w = WorkerPhase.cancelled) :
    s.coord = CoordPhase.finished ∧ s.produced = 20 ∧ s.queue.unfinished = 0 := by
  have inv := reachable_inv h
  have hfin := inv.cancelledCoord hc
  refine ⟨hfin, ?_, inv.coordJoined (Or.inr hfin)⟩
  exact inv.coordProduced (by rw [hfin]; simp)

/-- Witness for C6 at the post-cancellation state of the sequential run. -/
theorem C6_cancel_only_after_join_witness :
    finishedState.coord = CoordPhase.finished ∧ finishedState.produced = 20 ∧
      finishedState.queue.unfinished = 0 :=
  C6_cancel_only_after_join finishedState ⟨joinSched ++ [Label.cancelAll], cancelSched_run⟩
    ⟨WorkerPhase.cancelled, by simp [finishedState, mkLoopState], rfl⟩

/-- C7: the cashier loop never terminates on its own — the `return
total_time` statement after `while True:` is unreachable: no reachable state
of the event loop has a cashier in the `returned` phase; a cashier leaves
its loop only through external cancellation. -/
theorem C7_worker_never_returns (s : SysState) (h : Reachable s) :
    ∀ w ∈ s.workers, w ≠ WorkerPhase.returned :=
  (reachable_inv h).noReturn

/-- Witness for C7 at the post-cancellation state of the sequential run. -/
theorem C7_worker_never_returns_witness :
    WorkerPhase.cancelled ≠ WorkerPhase.returned :=
  C7_worker_never_returns finishedState ⟨joinSched ++ [Label.cancelAll], cancelSched_run⟩
    WorkerPhase.cancelled (by simp [finishedState, mkLoopState])

/-- C2: once `join()` has returned (and hence whenever cancellation — which
only happens afterwards — has been issued), the total time accumulated
across all `cashier_times` slots equals the sum of all rounded sub-task
durations of all generated customers; in the fixed configuration that sum
is 40.0 seconds and the total produced is 20. -/
theorem C2_conservation (s : SysState) (h : Reachable s)
    (hj : s.coord = CoordPhase.joined ∨ s.coord = CoordPhase.finished) :
    s.stats.sum
        = ((List.range s.produced).map fun k => customerTime (generate_customer k)).sum ∧
    s.stats.sum = 40 ∧ s.produced = 20 := by
  have inv := reachable_inv h
  have hprod : s.produced = 20 := by
    apply inv.coordProduced
    rcases hj with hj | hj <;> rw [hj] <;> simp
  have hunf : s.queue.unfinished = 0 := inv.coordJoined hj
  have he := inv.unfinishedEq
  have hitems : s.queue.items = [] := List.eq_nil_of_length_eq_zero (by omega)
  have hsleep : (s.workers.map sleepTime).sum = 0 := by
    apply List.sum_eq_zero
    intro x hx
    obtain ⟨w, hwmem, hw⟩ := List.mem_map.mp hx
    rw [← hw]
    have hw0 : holdCount w = 0 := by
      have hhold : (s.workers.map holdCount).sum = 0 := by omega
      rw [List.sum_eq_zero_iff] at hhold
      exact hhold _ (List.mem_map_of_mem holdCount hwmem)
    cases w with
    | sleeping p rest => exact absurd hw0 (by simp [holdCount])
    | atGet => simp [sleepTime]
    | returned => simp [sleepTime]
    | cancelled => simp [sleepTime]
  have hcons := inv.conservation
  rw [hitems, hsleep] at hcons
  simp only [List.map_nil, List.sum_nil, add_zero] at hcons
  refine ⟨hcons, ?_, hprod⟩
  rw [hcons, hprod]
  exact range20_sum

/-- Witness for C2 at the state where `join()` has just returned in the
sequential run. -/
theorem C2_conservation_witness :
    joinedState.stats.sum
        = ((List.range joinedState.produced).map
            fun k => customerTime (generate_customer k)).sum ∧
    joinedState.stats.sum = 40 ∧ joinedState.produced = 20 :=
  C2_conservation joinedState ⟨joinSched, joinSched_run⟩ (Or.inl rfl)

/-- `task_done()` never touches `cashier_times`. -/
theorem sysTaskDone_stats (x : SysState) : (sysTaskDone x).stats = x.stats := by
  unfold sysTaskDone
  split <;> rfl

/-- A cashier's `get` segment never touches `cashier_times`. -/
theorem wget_stats_eq (i : ℕ) (s s' : SysState)
    (h : sysStep s (.wget i) = some s') : s'.stats = s.stats := by
  simp only [sysStep] at h
  split at h
  case h_2 => exact Option.noConfusion h
  case h_1 hw =>
    split at h
    case h_1 => exact Option.noConfusion h
    case h_2 c rest hq =>
      split at h
      case h_1 =>
          injection h with h
          subst h
          rw [sysTaskDone_stats]
      case h_2 =>
          injection h with h
          subst h
          rfl

/-- A cashier's sleep segment writes only its own `cashier_times` slot. -/
theorem wake_stats_frame (i j : ℕ) (s s' : SysState) (hij : j ≠ i)
    (h : sysStep s (.wake i) = some s') : s'.stats[j]? = s.stats[j]? := by
  simp only [sysStep] at h
  split at h
  case h_2 => exact Option.noConfusion h
  case h_1 p rest hw =>
    cases rest with
    | nil =>
        replace h : some (sysTaskDone { s with
            stats := s.stats.set i (s.stats.getD i 0 + pyRound2 p.checkout_time)
            workers := s.workers.set i WorkerPhase.atGet }) = some s' := h
        injection h with h
        subst h
        rw [sysTaskDone_stats]
        exact List.getElem?_set_ne fun he => hij he.symm
    | cons q rest2 =>
        replace h : some { s with
            stats := s.stats.set i (s.stats.getD i 0 + pyRound2 p.checkout_time)
            workers := s.workers.set i (WorkerPhase.sleeping q rest2) } = some s' := h
        injection h with h
        subst h
        exact List.getElem?_set_ne fun he => hij he.symm

/-- C8: cashier `i` mutates only `cashier_times[i]`: across any run of
steps of cashier `i` alone (its `get` completions and its sleep
completions), every other slot `j ≠ i` is left exactly as it was; no
cashier's transition reads or writes another cashier's slot. -/
theorem C8_worker_frame (i : ℕ) (ls : List Label)
    (hls : ∀ l ∈ ls, l = Label.wget i ∨ l = Label.wake i) :
    ∀ (s s' : SysState), runFrom s ls = some s' →
    ∀ j, j ≠ i → s'.stats[j]? = s.stats[j]? := by
  induction ls with
  | nil =>
      intro s s' h j hj
      injection h with h
      rw [h]
  | cons l ls ih =>
      intro s s' h j hj
      simp only [runFrom, List.foldlM_cons] at h
      cases hstep : sysStep s l with
      | none =>
          rw [hstep] at h
          exact Option.noConfusion h
      | some s1 =>
          rw [hstep] at h
          have hrest := ih (fun l2 hl2 => hls l2 (List.mem_cons_of_mem l hl2)) s1 s' h j hj
          rw [hrest]
          rcases hls l (List.mem_cons_self l ls) with rfl | rfl
          · rw [wget_stats_eq i s s1 hstep]
          · exact wake_stats_frame i j s s1 hj hstep

/-- Witness for C8: cashier 0 dequeues a customer; slot 1 is untouched. -/
theorem C8_worker_frame_witness :
    ({ queue := ⟨[], 5, 1⟩
       produced := 1
       workers := [WorkerPhase.sleeping ⟨"beef", 1⟩
           [⟨"banana", 2/5⟩, ⟨"sausage", 2/5⟩, ⟨"diapers", 1/5⟩],
         WorkerPhase.atGet, WorkerPhase.atGet, WorkerPhase.atGet, WorkerPhase.atGet]
       stats := List.replicate 5 0
       coord := CoordPhase.awaitingProducer
       error := false } : SysState).stats[1]?
      = ({ queue := ⟨[generate_customer 0], 5, 1⟩
           produced := 1
           workers := List.replicate 5 WorkerPhase.atGet
           stats := List.replicate 5 0
           coord := CoordPhase.awaitingProducer
           error := false } : SysState).stats[1]? :=
  C8_worker_frame 0 [Label.wget 0] (by simp)
    { queue := ⟨[generate_customer 0], 5, 1⟩
      produced := 1
      workers := List.replicate 5 WorkerPhase.atGet
      stats := List.replicate 5 0
      coord := CoordPhase.awaitingProducer
      error := false }
    { queue := ⟨[], 5, 1⟩
      produced := 1
      workers := [WorkerPhase.sleeping ⟨"beef", 1⟩
          [⟨"banana", 2/5⟩, ⟨"sausage", 2/5⟩, ⟨"diapers", 1/5⟩],
        WorkerPhase.atGet, WorkerPhase.atGet, WorkerPhase.atGet, WorkerPhase.atGet]
      stats := List.replicate 5 0
      coord := CoordPhase.awaitingProducer
      error := false }
    (by simp [runFrom, sysStep, generate_customer, all_products, List.set, List.replicate])
    1 (by omega)

/-- C10: every `cashier_times` slot is non-negative and monotonically
non-decreasing: slots start at 0, every reachable state has only
non-negative slots, and every atomic step of the event loop either leaves a
slot unchanged or adds the non-negative `round(checkout_time, 2)` of a
catalog product, so no step ever decreases any slot. -/
theorem C10_stats_monotone (s : SysState) (l : Label) (s' : SysState)
    (h : Reachable s) (hstep : sysStep s l = some s') (j : ℕ) :
    0 ≤ s.stats.getD j 0 ∧ s.stats.getD j 0 ≤ s'.stats.getD j 0 := by
  have inv := reachable_inv h
  have hnn : 0 ≤ s.stats.getD j 0 := by
    by_cases hj : j < s.stats.length
    · rw [List.getD_eq_getElem s.stats 0 hj]
      exact inv.statsNonneg _ (List.getElem_mem hj)
    · rw [List.getD_eq_getElem?_getD, List.getElem?_eq_none (by omega)]
      simp
  refine ⟨hnn, ?_⟩
  cases l with
  | produce =>
      have hs : s'.stats = s.stats := by
        simp only [sysStep] at hstep
        split at hstep
        case isFalse => exact Option.noConfusion hstep
        case isTrue =>
          injection hstep with h2
          rw [← h2]
      rw [hs]
  | producerDone =>
      have hs : s'.stats = s.stats := by
        simp only [sysStep] at hstep
        split at hstep
        case isFalse => exact Option.noConfusion hstep
        case isTrue =>
          injection hstep with h2
          rw [← h2]
      rw [hs]
  | joinReturn =>
      have hs : s'.stats = s.stats := by
        simp only [sysStep] at hstep
        split at hstep
        case isFalse => exact Option.noConfusion hstep
        case isTrue =>
          injection hstep with h2
          rw [← h2]
      rw [hs]
  | cancelAll =>
      have hs : s'.stats = s.stats := by
        simp only [sysStep] at hstep
        split at hstep
        case isFalse => exact Option.noConfusion hstep
        case isTrue =>
          injection hstep with h2
          rw [← h2]
      rw [hs]
  | wget i =>
      have hs : s'.stats = s.stats := wget_stats_eq i s s' hstep
      rw [hs]
  | wake i =>
      simp only [sysStep] at hstep
      split at hstep
      case h_2 => exact Option.noConfusion hstep
      case h_1 p rest hw =>
        obtain ⟨hi, hval⟩ := List.getElem?_eq_some.mp hw
        have hiStats : i < s.stats.length := by
          rw [inv.statsLen]
          rw [inv.workersLen] at hi
          exact hi
        have hp0 : 0 ≤ pyRound2 p.checkout_time := by
          have hOk := inv.sleepOk _ (hval ▸ List.getElem_mem hi)
          simp only [SleepOk] at hOk
          exact hOk.1
        have hsets : s'.stats
            = s.stats.set i (s.stats.getD i 0 + pyRound2 p.checkout_time) := by
          cases rest with
          | nil =>
              replace hstep : some (sysTaskDone { s with
                  stats := s.stats.set i (s.stats.getD i 0 + pyRound2 p.checkout_time)
                  workers := s.workers.set i WorkerPhase.atGet }) = some s' := hstep
              injection hstep with h2
              rw [← h2, sysTaskDone_stats]
          | cons q rest2 =>
              replace hstep : some { s with
                  stats := s.stats.set i (s.stats.getD i 0 + pyRound2 p.checkout_time)
                  workers := s.workers.set i (WorkerPhase.sleeping q rest2) } = some s' := hstep
              injection hstep with h2
              rw [← h2]
        rw [hsets]
        by_cases hij : j = i
        · subst hij
          have hget : (s.stats.set j (s.stats.getD j 0 + pyRound2 p.checkout_time)).getD j 0
              = s.stats.getD j 0 + pyRound2 p.checkout_time := by
            rw [List.getD_eq_getElem?_getD, List.getElem?_set, if_pos rfl, if_pos hiStats]
            rfl
          rw [hget]
          linarith
        · have hget : (s.stats.set i (s.stats.getD i 0 + pyRound2 p.checkout_time)).getD j 0
              = s.stats.getD j 0 := by
            rw [List.getD_eq_getElem?_getD,
              List.getElem?_set_ne (fun he => hij he.symm),
              ← List.getD_eq_getElem?_getD]
          rw [hget]

/-- Witness for C10: the first producer step from the initial state leaves
slot 0 at its non-negative value. -/
theorem C10_stats_monotone_witness :
    0 ≤ initSys.stats.getD 0 0 ∧
    initSys.stats.getD 0 0
      ≤ ({ queue := ⟨[generate_customer 0], 5, 1⟩
           produced := 1
           workers := List.replicate 5 WorkerPhase.atGet
           stats := List.replicate 5 0
           coord := CoordPhase.awaitingProducer
           error := false } : SysState).stats.getD 0 0 :=
  C10_stats_monotone initSys Label.produce
    { queue := ⟨[generate_customer 0], 5, 1⟩
      produced := 1
      workers := List.replicate 5 WorkerPhase.atGet
      stats := List.replicate 5 0
      coord := CoordPhase.awaitingProducer
      error := false }
    ⟨[], rfl⟩ (by simp [sysStep, initSys, initQueue]) 0
